import Mathlib

/-!
# A verification model of the Sweeper Minesweeper solver

This file gives a shallow embedding of `src/solver.js` (the functions
`getNeighbors` and `findMoves`) and proves properties of the two-pass
deduction algorithm.

Modelling conventions:
* JS numbers that hold clue values are modelled as `Int`.
* JS exceptions (out-of-bounds property accesses such as
  `board[0].length` on an empty board, or `board[r][c].state` on a
  ragged board) are modelled by `Option`: `none` is a thrown
  `TypeError`, `some` a normal result.
* JS `Set` of string keys is modelled as an insertion-ordered
  duplicate-free list of keys; a JS string is modelled as `List Char`.
* The template literal `` `${row}_${col}` `` is modelled with
  `Nat.toDigits 10`, the digit-character list underlying Lean's own
  `Nat.repr`, which agrees with the decimal rendering JS performs.
* `String.prototype.split` with a one-character separator and
  `Number(...)` on a digit string are modelled by `splitChar` and
  `parseNat?` below.
-/

namespace Sweeper

/-- Tile state as read from the page: hidden, or a revealed clue value. -/
inductive TileState where
  | hidden : TileState
  | number (value : Int) : TileState
deriving DecidableEq

/-- A board is a row-major 2D arrangement of tile states. -/
abbrev Board := List (List TileState)

/-- A position (row, col), zero-based. -/
abbrev Pos := Nat × Nat

/-- A JS string key, modelled as its character sequence. -/
abbrev Key := List Char

/-- True exactly on the `hidden` state (the JS `kind === "hidden"` test). -/
def TileState.isHidden : TileState → Bool
  | .hidden => true
  | .number _ => false

/-- Sequential left-to-right fold where each step may throw (`none`). -/
def foldE (f : σ → α → Option σ) (init : σ) : List α → Option σ
  | [] => some init
  | x :: xs => do foldE f (← f init x) xs

/-- JS `Array.prototype.filter` with a predicate that may throw. -/
def filterE (p : α → Option Bool) : List α → Option (List α)
  | [] => some []
  | x :: xs => do
    let b ← p x
    let rest ← filterE p xs
    some (if b then x :: rest else rest)

/-- JS `Array.prototype.map` with a function that may throw. -/
def mapE (f : α → Option β) : List α → Option (List β)
  | [] => some []
  | x :: xs => do some ((← f x) :: (← mapE f xs))

/-- The eight relative offsets, in the order the source lists them. -/
def directions : List (Int × Int) :=
  [(-1, -1), (-1, 0), (-1, 1), (0, -1), (0, 1), (1, -1), (1, 0), (1, 1)]

/-- The width the bounds check uses: `board[0].length` (0 if no rows). -/
def width0 (board : Board) : Nat := (board.headD []).length

/-- The in-bounds neighbors of `(row, col)`, in the fixed offset order
of `directions`. -/
def getNeighbors (board : Board) (row col : Int) : List Pos :=
  directions.filterMap fun d =>
    let newRow := row + d.1
    let newCol := col + d.2
    if 0 ≤ newRow ∧ newRow < (board.length : Int) ∧
        0 ≤ newCol ∧ newCol < (width0 board : Int) then
      some (newRow.toNat, newCol.toNat)
    else
      none

/-- The JS bounds test with its short-circuit evaluation made explicit:
the read of `board[0].length` only happens after the row test passed,
and on a board with no rows that read would be a `TypeError` (`none`). -/
def inBoundsChecked (board : Board) (newRow newCol : Int) : Option Bool :=
  if 0 ≤ newRow ∧ newRow < (board.length : Int) then
    board.head?.map fun row0 =>
      decide (0 ≤ newCol ∧ newCol < (row0.length : Int))
  else
    some false

/-- One direction step of the checked neighbor enumeration. -/
def neighborStep (board : Board) (row col : Int) (acc : List Pos) (d : Int × Int) :
    Option (List Pos) := do
  let newRow := row + d.1
  let newCol := col + d.2
  let ok ← inBoundsChecked board newRow newCol
  some (if ok then acc ++ [(newRow.toNat, newCol.toNat)] else acc)

/-- The neighbor enumeration with each bounds test evaluated through
`inBoundsChecked`, so that a `TypeError` is representable as `none`. -/
def getNeighborsChecked (board : Board) (row col : Int) : Option (List Pos) :=
  foldE (neighborStep board row col) [] directions

/-- Decimal digit characters of `n`, most significant first: the
character list behind `Nat.repr`, hence behind the JS-style rendering
of a nonnegative integer. -/
def natChars (n : Nat) : List Char := Nat.toDigits 10 n

/-- The cell key `` `${row}_${col}` `` of the source. -/
def cellKey (row col : Nat) : Key :=
  natChars row ++ ('_' : Char) :: natChars col

/-- The key of a position. -/
def keyOf (p : Pos) : Key := cellKey p.1 p.2

/-- JS `String.prototype.split` with a single-character separator:
splitting an empty string yields one empty group. -/
def splitChar (sep : Char) : List Char → List (List Char)
  | [] => [[]]
  | c :: cs =>
    match splitChar sep cs with
    | [] => [[]]
    | g :: gs => if c = sep then [] :: g :: gs else (c :: g) :: gs

/-- JS `Number(...)` restricted to the strings that appear here: a
nonempty all-digit string parses to its decimal value, anything else
is `NaN` (`none`). -/
def parseNat? (s : List Char) : Option Nat :=
  if s ≠ [] ∧ s.all Char.isDigit then
    some (s.foldl (fun n c => n * 10 + (c.toNat - ('0' : Char).toNat)) 0)
  else
    none

/-- The decoding `key.split('_').map(Number)` destructured into a row
and a column. -/
def parseKey (key : Key) : Option Pos :=
  match splitChar ('_' : Char) key with
  | r :: c :: _ => do
    some ((← parseNat? r), (← parseNat? c))
  | _ => none

/-- The tile at a position, `none` when the access is out of bounds. -/
def tileAt? (board : Board) (p : Pos) : Option TileState :=
  (board[p.1]?).bind fun row => row[p.2]?

/-- JS `Set.prototype.add` on an insertion-ordered list without
duplicates. -/
def setAdd (s : List Key) (k : Key) : List Key :=
  if k ∈ s then s else s ++ [k]

/-- All cells of the board with their indices, in the row-major order
the two `for` loops of `findMoves` visit them. -/
def cellsOf (board : Board) : List (Nat × Nat × TileState) :=
  (board.enum.map fun ri => ri.2.enum.map fun ci => (ri.1, ci.1, ci.2)).flatten

/-- One loop body of the first pass of `findMoves`: a revealed clue
whose value equals its number of hidden neighbors marks all of them as
mines. -/
def pass1Cell (board : Board) (mines : List Key) (cell : Nat × Nat × TileState) :
    Option (List Key) :=
  match cell.2.2 with
  | .hidden => some mines
  | .number value => do
    let ns ← getNeighborsChecked board cell.1 cell.2.1
    let hiddenNs ← filterE (fun n => do
        let t ← tileAt? board n
        some t.isHidden) ns
    if value = (hiddenNs.length : Int) then
      some (hiddenNs.foldl (fun acc n => setAdd acc (keyOf n)) mines)
    else
      some mines

/-- The first pass of `findMoves` over all cells. -/
def pass1 (board : Board) : Option (List Key) :=
  foldE (pass1Cell board) [] (cellsOf board)

/-- One loop body of the second pass of `findMoves`: a revealed clue
whose value equals its count of already-identified mine neighbors
marks its remaining hidden neighbors as safe. -/
def pass2Cell (board : Board) (mines : List Key) (safe : List Key)
    (cell : Nat × Nat × TileState) : Option (List Key) :=
  match cell.2.2 with
  | .hidden => some safe
  | .number value => do
    let ns ← getNeighborsChecked board cell.1 cell.2.1
    let identifiedMineCount := (ns.filter fun n => decide (keyOf n ∈ mines)).length
    if value = (identifiedMineCount : Int) then
      let hiddenNs ← filterE (fun n => do
          let t ← tileAt? board n
          some (t.isHidden && !(decide (keyOf n ∈ mines)))) ns
      some (hiddenNs.foldl (fun acc n => setAdd acc (keyOf n)) safe)
    else
      some safe

/-- The second pass of `findMoves` over all cells. -/
def pass2 (board : Board) (mines : List Key) : Option (List Key) :=
  foldE (pass2Cell board mines) [] (cellsOf board)

/-- Both passes, then the key sets converted back to position arrays;
the returned pair is `(safeCells, mineCells)`. -/
def findMoves (board : Board) : Option (List Pos × List Pos) := do
  let mines ← pass1 board
  let safe ← pass2 board mines
  let safeArr ← mapE parseKey safe
  let mineArr ← mapE parseKey mines
  some (safeArr, mineArr)

/-- Rectangularity: every row has the width of row 0. -/
def isRect (board : Board) : Bool :=
  board.all fun row => decide (row.length = width0 board)

/-- True iff the tile at `n` exists and is hidden (the total version of
the neighbor test of pass 1, meaningful whenever the access succeeds). -/
def isHiddenAt (board : Board) (n : Pos) : Bool :=
  match tileAt? board n with
  | some t => t.isHidden
  | none => false

/-- Pure counterpart of `pass1Cell`, used on boards where every access
succeeds. -/
def pass1CellP (board : Board) (mines : List Key) (cell : Nat × Nat × TileState) :
    List Key :=
  match cell.2.2 with
  | .hidden => mines
  | .number value =>
    let hs := (getNeighbors board cell.1 cell.2.1).filter (isHiddenAt board)
    if value = (hs.length : Int) then
      hs.foldl (fun acc n => setAdd acc (keyOf n)) mines
    else
      mines

/-- Pure counterpart of `pass1`. -/
def pass1P (board : Board) : List Key :=
  (cellsOf board).foldl (pass1CellP board) []

/-- Pure counterpart of `pass2Cell`. -/
def pass2CellP (board : Board) (mines : List Key) (safe : List Key)
    (cell : Nat × Nat × TileState) : List Key :=
  match cell.2.2 with
  | .hidden => safe
  | .number value =>
    let ns := getNeighbors board cell.1 cell.2.1
    let identifiedMineCount := (ns.filter fun n => decide (keyOf n ∈ mines)).length
    if value = (identifiedMineCount : Int) then
      let hs := ns.filter fun n => isHiddenAt board n && !(decide (keyOf n ∈ mines))
      hs.foldl (fun acc n => setAdd acc (keyOf n)) safe
    else
      safe

/-- Pure counterpart of `pass2`. -/
def pass2P (board : Board) (mines : List Key) : List Key :=
  (cellsOf board).foldl (pass2CellP board mines) []

/-- The Pass-1 conclusion predicate, stated in the spec's terms: `p` is a
hidden in-bounds neighbor of a revealed clue whose value equals its
number of hidden neighbors. -/
def MineConcl (board : Board) (p : Pos) : Prop :=
  ∃ r c v, tileAt? board (r, c) = some (.number v) ∧
    p ∈ getNeighbors board r c ∧
    tileAt? board p = some .hidden ∧
    v = (((getNeighbors board r c).filter (isHiddenAt board)).length : Int)

/-- The Pass-2 conclusion predicate relative to a mine set `minesPos`:
`p` is hidden, not a concluded mine, and neighbors a revealed clue whose
value equals its count of neighbors concluded as mines. -/
def SafeConcl (board : Board) (minesPos : List Pos) (p : Pos) : Prop :=
  tileAt? board p = some .hidden ∧ p ∉ minesPos ∧
  ∃ r c v, tileAt? board (r, c) = some (.number v) ∧
    p ∈ getNeighbors board r c ∧
    v = (((getNeighbors board r c).filter fun n => decide (n ∈ minesPos)).length : Int)

/-- Reference digit expansion: decimal digits of `n`, most significant
first, by structural division; proved equal to `natChars`. -/
def natCharsAlt (n : Nat) : List Char :=
  if _h : n < 10 then [Nat.digitChar n]
  else natCharsAlt (n / 10) ++ [Nat.digitChar (n % 10)]
decreasing_by exact Nat.div_lt_self (by omega) (by omega)

/-- The decimal-accumulating fold of `parseNat?`, with explicit
accumulator. -/
def parseVal (a : Nat) (s : List Char) : Nat :=
  s.foldl (fun n c => n * 10 + (c.toNat - ('0' : Char).toNat)) a

/-- Scenario C of the spec: 2×3 board, left column revealed 2 over 1. -/
def boardC : Board :=
  [[.number 2, .hidden, .hidden],
   [.number 1, .hidden, .hidden]]

/-- A 2×3 board on which pass 1 concludes the mine (0,1) twice (through
two clues) and pass 2 then concludes (0,2) and (1,2) safe. -/
def boardB : Board :=
  [[.number 1, .hidden, .hidden],
   [.number 1, .number 1, .hidden]]

/-! ## Decimal keys: `cellKey` and `parseKey` -/

theorem natCharsAlt_of_lt {n : Nat} (h : n < 10) :
    natCharsAlt n = [Nat.digitChar n] := by
  rw [natCharsAlt]
  simp [h]

theorem natCharsAlt_of_ge {n : Nat} (h : ¬ n < 10) :
    natCharsAlt n = natCharsAlt (n / 10) ++ [Nat.digitChar (n % 10)] := by
  rw [natCharsAlt]
  simp [h]

theorem toDigitsCore_eq_natCharsAlt (fuel : Nat) :
    ∀ n ds, n < fuel → Nat.toDigitsCore 10 fuel n ds = natCharsAlt n ++ ds := by
  induction fuel with
  | zero => intro n ds h; omega
  | succ fuel ih =>
    intro n ds h
    by_cases h10 : n < 10
    · have hdiv : n / 10 = 0 := by omega
      have hmod : n % 10 = n := by omega
      simp only [Nat.toDigitsCore, hdiv, hmod, if_pos]
      rw [natCharsAlt_of_lt h10]
      rfl
    · have hdiv : ¬ n / 10 = 0 := by omega
      have hlt : n / 10 < fuel := by omega
      simp only [Nat.toDigitsCore, if_neg hdiv]
      rw [ih (n / 10) _ hlt, natCharsAlt_of_ge h10, List.append_assoc]
      rfl

theorem natChars_eq_natCharsAlt (n : Nat) : natChars n = natCharsAlt n := by
  have := toDigitsCore_eq_natCharsAlt (n + 1) n [] (by omega)
  simpa [natChars, Nat.toDigits] using this

theorem digitChar_isDigit {m : Nat} (h : m < 10) :
    (Nat.digitChar m).isDigit = true := by
  interval_cases m <;> decide

theorem digitChar_toNat_sub {m : Nat} (h : m < 10) :
    (Nat.digitChar m).toNat - ('0' : Char).toNat = m := by
  interval_cases m <;> decide

theorem isDigit_of_mem_natCharsAlt :
    ∀ n, ∀ c ∈ natCharsAlt n, c.isDigit = true := by
  intro n
  induction n using Nat.strong_induction_on with
  | _ n ih =>
    intro c hc
    by_cases h : n < 10
    · rw [natCharsAlt_of_lt h] at hc
      simp only [List.mem_singleton] at hc
      subst hc
      exact digitChar_isDigit h
    · rw [natCharsAlt_of_ge h] at hc
      rcases List.mem_append.mp hc with hmem | hmem
      · exact ih (n / 10) (Nat.div_lt_self (by omega) (by omega)) c hmem
      · simp only [List.mem_singleton] at hmem
        subst hmem
        exact digitChar_isDigit (Nat.mod_lt n (by omega))

theorem natCharsAlt_ne_nil (n : Nat) : natCharsAlt n ≠ [] := by
  by_cases h : n < 10
  · rw [natCharsAlt_of_lt h]; simp
  · rw [natCharsAlt_of_ge h]; simp

theorem underscore_not_mem_natChars (n : Nat) : ('_' : Char) ∉ natChars n := by
  rw [natChars_eq_natCharsAlt]
  intro hmem
  have := isDigit_of_mem_natCharsAlt n _ hmem
  simp at this

theorem parseVal_append (a : Nat) (s t : List Char) :
    parseVal a (s ++ t) = parseVal (parseVal a s) t :=
  List.foldl_append _ _ _ _

theorem parseVal_natCharsAlt :
    ∀ n a, parseVal a (natCharsAlt n) = a * 10 ^ (natCharsAlt n).length + n := by
  intro n
  induction n using Nat.strong_induction_on with
  | _ n ih =>
    intro a
    by_cases h : n < 10
    · rw [natCharsAlt_of_lt h]
      have h1 : parseVal a [Nat.digitChar n] =
          a * 10 + ((Nat.digitChar n).toNat - ('0' : Char).toNat) := rfl
      rw [h1, digitChar_toNat_sub h]
      simp
    · rw [natCharsAlt_of_ge h, parseVal_append]
      rw [ih (n / 10) (Nat.div_lt_self (by omega) (by omega)) a]
      have h1 : parseVal (a * 10 ^ (natCharsAlt (n / 10)).length + n / 10)
            [Nat.digitChar (n % 10)] =
          (a * 10 ^ (natCharsAlt (n / 10)).length + n / 10) * 10 +
            ((Nat.digitChar (n % 10)).toNat - ('0' : Char).toNat) := rfl
      rw [h1, digitChar_toNat_sub (Nat.mod_lt n (by omega)), List.length_append,
        List.length_singleton, pow_add, pow_one]
      set k := 10 ^ (natCharsAlt (n / 10)).length with hk
      have h3 : (a * k + n / 10) * 10 + n % 10 =
          a * (k * 10) + (n / 10 * 10 + n % 10) := by ring
      have h4 : n / 10 * 10 + n % 10 = n := by omega
      rw [h3, h4]

theorem parseNat?_natChars (n : Nat) : parseNat? (natChars n) = some n := by
  unfold parseNat?
  rw [if_pos]
  · have : (natChars n).foldl
        (fun n c => n * 10 + (c.toNat - ('0' : Char).toNat)) 0 = parseVal 0 (natChars n) := rfl
    rw [this, natChars_eq_natCharsAlt, parseVal_natCharsAlt]
    simp
  · constructor
    · rw [natChars_eq_natCharsAlt]; exact natCharsAlt_ne_nil n
    · rw [natChars_eq_natCharsAlt]
      exact List.all_eq_true.mpr (isDigit_of_mem_natCharsAlt n)

theorem splitChar_ne_nil (sep : Char) (s : List Char) : splitChar sep s ≠ [] := by
  cases s with
  | nil => simp [splitChar]
  | cons c cs =>
    rw [splitChar]
    cases h : splitChar sep cs with
    | nil => simp
    | cons g gs =>
      by_cases hc : c = sep <;> simp [hc]

theorem splitChar_of_not_mem {sep : Char} :
    ∀ {s : List Char}, sep ∉ s → splitChar sep s = [s] := by
  intro s
  induction s with
  | nil => intro _; rfl
  | cons c cs ih =>
    intro h
    have hc : ¬ c = sep := fun hcs => h (hcs ▸ List.mem_cons_self c cs)
    have hcs : sep ∉ cs := fun hm => h (List.mem_cons_of_mem c hm)
    rw [splitChar, ih hcs]
    simp [hc]

theorem splitChar_append {sep : Char} :
    ∀ (a b : List Char), sep ∉ a →
      splitChar sep (a ++ sep :: b) = a :: splitChar sep b := by
  intro a
  induction a with
  | nil =>
    intro b _
    rw [List.nil_append, splitChar]
    cases h : splitChar sep b with
    | nil => exact absurd h (splitChar_ne_nil sep b)
    | cons g gs => simp
  | cons c a' ih =>
    intro b h
    have hc : ¬ c = sep := fun hcs => h (hcs ▸ List.mem_cons_self c a')
    have ha' : sep ∉ a' := fun hm => h (List.mem_cons_of_mem c hm)
    rw [List.cons_append, splitChar, ih b ha']
    simp [hc]

theorem splitChar_cellKey (r c : Nat) :
    splitChar ('_' : Char) (cellKey r c) = [natChars r, natChars c] := by
  unfold cellKey
  rw [splitChar_append _ _ (underscore_not_mem_natChars r),
    splitChar_of_not_mem (underscore_not_mem_natChars c)]

theorem parseKey_cellKey (r c : Nat) : parseKey (cellKey r c) = some (r, c) := by
  unfold parseKey
  rw [splitChar_cellKey]
  simp [parseNat?_natChars]

theorem parseKey_keyOf (p : Pos) : parseKey (keyOf p) = some p := by
  unfold keyOf
  rw [parseKey_cellKey]

theorem keyOf_inj {p q : Pos} (h : keyOf p = keyOf q) : p = q := by
  have hp := parseKey_keyOf p
  have hq := parseKey_keyOf q
  rw [h, hq] at hp
  exact (Option.some_inj.mp hp).symm

/-! ## The `Option`-threaded combinators -/

theorem foldE_nil (f : σ → α → Option σ) (init : σ) : foldE f init [] = some init := rfl

theorem foldE_cons (f : σ → α → Option σ) (init : σ) (x : α) (xs : List α) :
    foldE f init (x :: xs) = (f init x).bind fun s => foldE f s xs := rfl

theorem foldE_append (f : σ → α → Option σ) (init : σ) (l₁ l₂ : List α) :
    foldE f init (l₁ ++ l₂) = (foldE f init l₁).bind fun s => foldE f s l₂ := by
  induction l₁ generalizing init with
  | nil => rw [List.nil_append, foldE_nil, Option.some_bind]
  | cons x xs ih =>
    rw [List.cons_append, foldE_cons, foldE_cons]
    cases f init x with
    | none => rfl
    | some s => simpa using ih s

theorem foldE_invariant {P : σ → Prop} (f : σ → α → Option σ) :
    ∀ (l : List α) (init out : σ), foldE f init l = some out → P init →
      (∀ s a s', a ∈ l → f s a = some s' → P s → P s') → P out := by
  intro l
  induction l with
  | nil =>
    intro init out h hP _
    rw [foldE_nil, Option.some_inj] at h
    exact h ▸ hP
  | cons x xs ih =>
    intro init out h hP hstep
    rw [foldE_cons] at h
    cases hfx : f init x with
    | none => rw [hfx] at h; exact absurd h (by simp)
    | some s =>
      rw [hfx] at h
      simp only [Option.some_bind] at h
      exact ih s out h (hstep init x s (List.mem_cons_self x xs) hfx hP)
        fun s a s' ha => hstep s a s' (List.mem_cons_of_mem x ha)

theorem foldE_eq_foldl (f : σ → α → Option σ) (g : σ → α → σ) :
    ∀ (l : List α), (∀ s a, a ∈ l → f s a = some (g s a)) →
      ∀ init, foldE f init l = some (l.foldl g init) := by
  intro l
  induction l with
  | nil => intro _ init; rfl
  | cons x xs ih =>
    intro h init
    rw [foldE_cons, h init x (List.mem_cons_self x xs)]
    simp only [Option.some_bind, List.foldl_cons]
    exact ih (fun s a ha => h s a (List.mem_cons_of_mem x ha)) (g init x)

theorem filterE_eq_filter (p : α → Option Bool) (q : α → Bool) :
    ∀ (l : List α), (∀ x ∈ l, p x = some (q x)) →
      filterE p l = some (l.filter q) := by
  intro l
  induction l with
  | nil => intro _; rfl
  | cons x xs ih =>
    intro h
    show (p x).bind (fun b => (filterE p xs).bind fun rest =>
      some (if b then x :: rest else rest)) = _
    rw [h x (List.mem_cons_self x xs), ih fun a ha => h a (List.mem_cons_of_mem x ha)]
    simp only [Option.some_bind, List.filter_cons]

theorem filterE_mem (p : α → Option Bool) :
    ∀ (l out : List α), filterE p l = some out → ∀ x ∈ out, x ∈ l ∧ p x = some true := by
  intro l
  induction l with
  | nil =>
    intro out h x hx
    rw [show filterE p [] = some [] from rfl, Option.some_inj] at h
    rw [← h] at hx
    simp at hx
  | cons a l ih =>
    intro out h x hx
    rw [show filterE p (a :: l) = (p a).bind fun b => (filterE p l).bind fun rest =>
      some (if b then a :: rest else rest) from rfl] at h
    cases hpa : p a with
    | none => rw [hpa] at h; exact absurd h (by simp)
    | some b =>
      rw [hpa] at h
      simp only [Option.some_bind] at h
      cases hrest : filterE p l with
      | none => rw [hrest] at h; exact absurd h (by simp)
      | some rest =>
        rw [hrest] at h
        simp only [Option.some_bind, Option.some_inj] at h
        subst h
        cases b with
        | true =>
          rcases List.mem_cons.mp hx with hxa | hxr
          · subst hxa
            exact ⟨List.mem_cons_self x l, hpa⟩
          · rcases ih rest hrest x hxr with ⟨hm, hp⟩
            exact ⟨List.mem_cons_of_mem a hm, hp⟩
        | false =>
          rcases ih rest hrest x hx with ⟨hm, hp⟩
          exact ⟨List.mem_cons_of_mem a hm, hp⟩

theorem mapE_eq_map (f : α → Option β) (g : α → β) :
    ∀ (l : List α), (∀ x ∈ l, f x = some (g x)) → mapE f l = some (l.map g) := by
  intro l
  induction l with
  | nil => intro _; rfl
  | cons x xs ih =>
    intro h
    show (f x).bind (fun y => (mapE f xs).bind fun rest => some (y :: rest)) = _
    rw [h x (List.mem_cons_self x xs), ih fun a ha => h a (List.mem_cons_of_mem x ha)]
    rfl

/-- Keys that are all position keys decode uniquely back to positions. -/
theorem decode_keys :
    ∀ keys : List Key, (∀ k ∈ keys, ∃ p : Pos, k = keyOf p) →
      ∃ ps : List Pos, mapE parseKey keys = some ps ∧ keys = ps.map keyOf := by
  intro keys
  induction keys with
  | nil => exact fun _ => ⟨[], rfl, rfl⟩
  | cons k ks ih =>
    intro h
    rcases h k (List.mem_cons_self k ks) with ⟨p, hp⟩
    rcases ih (fun a ha => h a (List.mem_cons_of_mem k ha)) with ⟨ps, hmap, hks⟩
    refine ⟨p :: ps, ?_, by rw [List.map_cons, ← hp, ← hks]⟩
    show (parseKey k).bind (fun y => (mapE parseKey ks).bind fun rest =>
      some (y :: rest)) = _
    rw [hp, parseKey_keyOf, hmap]
    rfl

theorem mem_map_keyOf {ps : List Pos} {q : Pos} : keyOf q ∈ ps.map keyOf ↔ q ∈ ps := by
  constructor
  · intro h
    rcases List.mem_map.mp h with ⟨p, hp, hkey⟩
    exact keyOf_inj hkey ▸ hp
  · exact fun h => List.mem_map_of_mem keyOf h

/-! ## `getNeighbors` -/

theorem mem_directions_ne_zero : ∀ d ∈ directions, ¬(d.1 = 0 ∧ d.2 = 0) := by decide

theorem inBoundsChecked_eq (board : Board) (nr nc : Int) :
    inBoundsChecked board nr nc =
      some (decide (0 ≤ nr ∧ nr < (board.length : Int) ∧
        0 ≤ nc ∧ nc < (width0 board : Int))) := by
  unfold inBoundsChecked
  by_cases h : 0 ≤ nr ∧ nr < (board.length : Int)
  · rw [if_pos h]
    cases board with
    | nil =>
      exfalso
      rcases h with ⟨h1, h2⟩
      simp only [List.length_nil, Nat.cast_zero] at h2
      omega
    | cons row rows =>
      simp only [List.head?_cons, Option.map_some']
      congr 1
      rw [decide_eq_decide]
      constructor
      · intro hc
        exact ⟨h.1, h.2, hc.1, by simpa [width0] using hc.2⟩
      · intro hc
        exact ⟨hc.2.2.1, by simpa [width0] using hc.2.2.2⟩
  · rw [if_neg h]
    congr 1
    rw [eq_comm, decide_eq_false_iff_not]
    intro hc
    exact h ⟨hc.1, hc.2.1⟩

theorem neighborStep_eq (board : Board) (row col : Int) (acc : List Pos)
    (d : Int × Int) :
    neighborStep board row col acc d =
      some (if 0 ≤ row + d.1 ∧ row + d.1 < (board.length : Int) ∧
          0 ≤ col + d.2 ∧ col + d.2 < (width0 board : Int) then
        acc ++ [((row + d.1).toNat, (col + d.2).toNat)]
      else acc) := by
  show (inBoundsChecked board (row + d.1) (col + d.2)).bind (fun ok =>
    some (if ok then acc ++ [((row + d.1).toNat, (col + d.2).toNat)] else acc)) = _
  rw [inBoundsChecked_eq, Option.some_bind]
  by_cases hc : 0 ≤ row + d.1 ∧ row + d.1 < (board.length : Int) ∧
      0 ≤ col + d.2 ∧ col + d.2 < (width0 board : Int)
  · rw [decide_eq_true hc, if_pos rfl, if_pos hc]
  · rw [decide_eq_false hc, if_neg hc]
    simp only [Bool.false_eq_true, if_false]

theorem foldE_inBounds (board : Board) (row col : Int) :
    ∀ (ds : List (Int × Int)) (acc : List Pos),
      foldE (neighborStep board row col) acc ds
        = some (acc ++ ds.filterMap fun d =>
            if 0 ≤ row + d.1 ∧ row + d.1 < (board.length : Int) ∧
                0 ≤ col + d.2 ∧ col + d.2 < (width0 board : Int) then
              some ((row + d.1).toNat, (col + d.2).toNat)
            else none) := by
  intro ds
  induction ds with
  | nil => intro acc; rw [foldE_nil, List.filterMap_nil, List.append_nil]
  | cons d ds ih =>
    intro acc
    rw [foldE_cons, neighborStep_eq, Option.some_bind]
    by_cases hc : 0 ≤ row + d.1 ∧ row + d.1 < (board.length : Int) ∧
        0 ≤ col + d.2 ∧ col + d.2 < (width0 board : Int)
    · rw [if_pos hc, ih, List.filterMap_cons, if_pos hc,
        List.append_assoc, List.singleton_append]
    · rw [if_neg hc, ih, List.filterMap_cons, if_neg hc]

theorem getNeighborsChecked_eq (board : Board) (row col : Int) :
    getNeighborsChecked board row col = some (getNeighbors board row col) := by
  have h := foldE_inBounds board row col directions []
  rw [List.nil_append] at h
  exact h

theorem mem_getNeighbors {board : Board} {row col : Int} {p : Pos} :
    p ∈ getNeighbors board row col ↔ ∃ d ∈ directions,
      (0 ≤ row + d.1 ∧ row + d.1 < (board.length : Int) ∧
        0 ≤ col + d.2 ∧ col + d.2 < (width0 board : Int)) ∧
      p = ((row + d.1).toNat, (col + d.2).toNat) := by
  unfold getNeighbors
  rw [List.mem_filterMap]
  constructor
  · rintro ⟨d, hd, hf⟩
    refine ⟨d, hd, ?_⟩
    by_cases hc : 0 ≤ row + d.1 ∧ row + d.1 < (board.length : Int) ∧
        0 ≤ col + d.2 ∧ col + d.2 < (width0 board : Int)
    · rw [if_pos hc] at hf
      exact ⟨hc, (Option.some_inj.mp hf).symm⟩
    · rw [if_neg hc] at hf
      exact absurd hf (by simp)
  · rintro ⟨d, hd, hc, hp⟩
    exact ⟨d, hd, by rw [if_pos hc, hp]⟩

theorem getNeighbors_bounds {board : Board} {row col : Int} {p : Pos}
    (h : p ∈ getNeighbors board row col) :
    p.1 < board.length ∧ p.2 < width0 board := by
  rcases mem_getNeighbors.mp h with ⟨d, _, hc, hp⟩
  subst hp
  constructor <;> simp only [] <;> omega

theorem getNeighbors_ne_self {board : Board} {row col : Int} {p : Pos}
    (h : p ∈ getNeighbors board row col) :
    ¬((p.1 : Int) = row ∧ (p.2 : Int) = col) := by
  rcases mem_getNeighbors.mp h with ⟨d, hd, hc, hp⟩
  subst hp
  rintro ⟨h1, h2⟩
  simp only [] at h1 h2
  refine mem_directions_ne_zero d hd ⟨?_, ?_⟩ <;> omega

theorem filterMap_ite_sublist (l : List α) (p : α → Prop) [DecidablePred p] (g : α → β) :
    List.Sublist (l.filterMap fun a => if p a then some (g a) else none) (l.map g) := by
  induction l with
  | nil => simp
  | cons a l ih =>
    rw [List.filterMap_cons, List.map_cons]
    by_cases hp : p a
    · rw [if_pos hp]
      exact List.Sublist.cons₂ (g a) ih
    · rw [if_neg hp]
      exact List.Sublist.cons (g a) ih

theorem getNeighbors_sublist (board : Board) (row col : Int) :
    List.Sublist (getNeighbors board row col)
      (directions.map fun d => ((row + d.1).toNat, (col + d.2).toNat)) :=
  filterMap_ite_sublist directions
    (fun d => 0 ≤ row + d.1 ∧ row + d.1 < (board.length : Int) ∧
      0 ≤ col + d.2 ∧ col + d.2 < (width0 board : Int))
    (fun d => ((row + d.1).toNat, (col + d.2).toNat))

theorem getNeighbors_length_le (board : Board) (row col : Int) :
    (getNeighbors board row col).length ≤ 8 := by
  have h := (getNeighbors_sublist board row col).length_le
  simpa [directions] using h

/-! ## Sets of keys, board cells, rectangular boards -/

theorem mem_setAdd {s : List Key} {k a : Key} :
    a ∈ setAdd s k ↔ a ∈ s ∨ a = k := by
  unfold setAdd
  by_cases h : k ∈ s
  · rw [if_pos h]
    constructor
    · exact Or.inl
    · rintro (ha | rfl)
      · exact ha
      · exact h
  · rw [if_neg h, List.mem_append, List.mem_singleton]

theorem nodup_setAdd {s : List Key} (hs : s.Nodup) (k : Key) :
    (setAdd s k).Nodup := by
  unfold setAdd
  by_cases h : k ∈ s
  · rwa [if_pos h]
  · rw [if_neg h]
    refine List.Nodup.append hs (List.nodup_singleton k) ?_
    intro a ha hak
    rw [List.mem_singleton] at hak
    subst hak
    exact h ha

theorem foldl_preserve {σ α : Type} {f : σ → α → σ} {P : σ → Prop}
    (hstep : ∀ s a, P s → P (f s a)) :
    ∀ (l : List α) (init : σ), P init → P (l.foldl f init) := by
  intro l
  induction l with
  | nil => exact fun init h => h
  | cons x xs ih => exact fun init h => ih (f init x) (hstep init x h)

theorem mem_foldl_setAdd (g : Pos → Key) :
    ∀ (l : List Pos) (init : List Key) (k : Key),
      k ∈ l.foldl (fun acc n => setAdd acc (g n)) init ↔
        k ∈ init ∨ ∃ n ∈ l, k = g n := by
  intro l
  induction l with
  | nil => simp
  | cons x xs ih =>
    intro init k
    rw [List.foldl_cons, ih]
    constructor
    · rintro (hm | hex)
      · rcases mem_setAdd.mp hm with hm | rfl
        · exact Or.inl hm
        · exact Or.inr ⟨x, List.mem_cons_self x xs, rfl⟩
      · rcases hex with ⟨n, hn, rfl⟩
        exact Or.inr ⟨n, List.mem_cons_of_mem x hn, rfl⟩
    · rintro (hm | ⟨n, hn, rfl⟩)
      · exact Or.inl (mem_setAdd.mpr (Or.inl hm))
      · rcases List.mem_cons.mp hn with rfl | hn'
        · exact Or.inl (mem_setAdd.mpr (Or.inr rfl))
        · exact Or.inr ⟨n, hn', rfl⟩

theorem nodup_foldl_setAdd (g : Pos → Key) (l : List Pos) (init : List Key)
    (h : init.Nodup) : (l.foldl (fun acc n => setAdd acc (g n)) init).Nodup :=
  foldl_preserve (P := fun s => s.Nodup) (fun _ a hs => nodup_setAdd hs (g a)) l init h

theorem mem_cellsOf {board : Board} {r c : Nat} {t : TileState} :
    (r, c, t) ∈ cellsOf board ↔ tileAt? board (r, c) = some t := by
  unfold cellsOf tileAt?
  rw [List.mem_flatten]
  constructor
  · rintro ⟨L, hL, hx⟩
    rcases List.mem_map.mp hL with ⟨ri, hri, rfl⟩
    rcases List.mem_map.mp hx with ⟨ci, hci, hceq⟩
    rcases Prod.mk.injEq .. ▸ hceq with ⟨h1, h2⟩
    rcases Prod.mk.injEq .. ▸ h2 with ⟨h3, h4⟩
    have hb := List.mem_enum_iff_getElem?.mp hri
    have hrw := List.mem_enum_iff_getElem?.mp hci
    rw [← h1, hb, Option.some_bind, ← h3, hrw, h4]
  · intro h
    cases hrow : board[r]? with
    | none => rw [hrow] at h; exact absurd h (by simp)
    | some row =>
      rw [hrow, Option.some_bind] at h
      refine ⟨row.enum.map fun ci => (r, ci.1, ci.2), ?_, ?_⟩
      · exact List.mem_map.mpr ⟨(r, row), List.mem_enum_iff_getElem?.mpr hrow, rfl⟩
      · exact List.mem_map.mpr ⟨(c, t), List.mem_enum_iff_getElem?.mpr h, rfl⟩

theorem rows_length_of_rect {board : Board} (hrect : isRect board = true) :
    ∀ row ∈ board, row.length = width0 board := by
  intro row hrow
  have h := List.all_eq_true.mp hrect row hrow
  exact of_decide_eq_true h

theorem tileAt?_isSome_of_rect {board : Board} (hrect : isRect board = true)
    {p : Pos} (h1 : p.1 < board.length) (h2 : p.2 < width0 board) :
    ∃ t, tileAt? board p = some t := by
  unfold tileAt?
  rw [List.getElem?_eq_getElem h1, Option.some_bind]
  have hlen : board[p.1].length = width0 board :=
    rows_length_of_rect hrect _ (List.getElem_mem h1)
  have h2' : p.2 < board[p.1].length := hlen ▸ h2
  exact ⟨board[p.1][p.2], List.getElem?_eq_getElem h2'⟩

theorem isHiddenAt_iff {board : Board} {n : Pos} :
    isHiddenAt board n = true ↔ tileAt? board n = some .hidden := by
  unfold isHiddenAt
  cases h : tileAt? board n with
  | none => simp
  | some t => cases t <;> simp [TileState.isHidden]

/-! ## Pass 1: bridge to the pure version and characterization -/

theorem pass1Cell_eq_of_rect {board : Board} (hrect : isRect board = true)
    (mines : List Key) (cell : Nat × Nat × TileState) :
    pass1Cell board mines cell = some (pass1CellP board mines cell) := by
  rcases cell with ⟨r, c, t⟩
  cases t with
  | hidden => rfl
  | number v =>
    have hfil : filterE (fun n => (tileAt? board n).bind fun t => some t.isHidden)
        (getNeighbors board r c)
        = some ((getNeighbors board r c).filter (isHiddenAt board)) := by
      apply filterE_eq_filter
      intro n hn
      rcases tileAt?_isSome_of_rect hrect (getNeighbors_bounds hn).1
        (getNeighbors_bounds hn).2 with ⟨u, hu⟩
      show (tileAt? board n).bind (fun t => some t.isHidden) = some (isHiddenAt board n)
      rw [hu, Option.some_bind]
      unfold isHiddenAt
      rw [hu]
    have hdefL : pass1Cell board mines (r, c, TileState.number v) =
        (getNeighborsChecked board r c).bind fun ns =>
          (filterE (fun n => (tileAt? board n).bind fun t => some t.isHidden) ns).bind
            fun hiddenNs =>
              if v = (hiddenNs.length : Int) then
                some (hiddenNs.foldl (fun acc n => setAdd acc (keyOf n)) mines)
              else some mines := rfl
    have hdefR : pass1CellP board mines (r, c, TileState.number v) =
        (if v = (((getNeighbors board r c).filter (isHiddenAt board)).length : Int) then
          ((getNeighbors board r c).filter (isHiddenAt board)).foldl
            (fun acc n => setAdd acc (keyOf n)) mines
        else mines) := rfl
    rw [hdefL, hdefR, getNeighborsChecked_eq, Option.some_bind, hfil, Option.some_bind]
    by_cases hv : v = (((getNeighbors board r c).filter (isHiddenAt board)).length : Int)
    · rw [if_pos hv, if_pos hv]
    · rw [if_neg hv, if_neg hv]

theorem pass1_eq_of_rect {board : Board} (hrect : isRect board = true) :
    pass1 board = some (pass1P board) :=
  foldE_eq_foldl (pass1Cell board) (pass1CellP board) (cellsOf board)
    (fun s a _ => pass1Cell_eq_of_rect hrect s a) []

theorem mem_pass1CellP {board : Board} {init : List Key}
    {cl : Nat × Nat × TileState} {k : Key} :
    k ∈ pass1CellP board init cl ↔ k ∈ init ∨ ∃ v, cl.2.2 = TileState.number v ∧
      v = (((getNeighbors board cl.1 cl.2.1).filter (isHiddenAt board)).length : Int) ∧
      ∃ n ∈ (getNeighbors board cl.1 cl.2.1).filter (isHiddenAt board), k = keyOf n := by
  rcases cl with ⟨r, c, t⟩
  cases t with
  | hidden =>
    constructor
    · exact fun h => Or.inl h
    · rintro (h | ⟨v, hv, _⟩)
      · exact h
      · exact absurd hv (by simp)
  | number v =>
    have hdef : pass1CellP board init (r, c, TileState.number v) =
        (if v = (((getNeighbors board r c).filter (isHiddenAt board)).length : Int) then
          ((getNeighbors board r c).filter (isHiddenAt board)).foldl
            (fun acc n => setAdd acc (keyOf n)) init
        else init) := rfl
    rw [hdef]
    by_cases hv : v = (((getNeighbors board r c).filter (isHiddenAt board)).length : Int)
    · rw [if_pos hv, mem_foldl_setAdd]
      constructor
      · rintro (h | ⟨n, hn, rfl⟩)
        · exact Or.inl h
        · exact Or.inr ⟨v, rfl, hv, n, hn, rfl⟩
      · rintro (h | ⟨v', hv', hlen, n, hn, rfl⟩)
        · exact Or.inl h
        · exact Or.inr ⟨n, hn, rfl⟩
    · rw [if_neg hv]
      constructor
      · exact fun h => Or.inl h
      · rintro (h | ⟨v', hv', hlen, n, hn, rfl⟩)
        · exact h
        · injection hv' with hv''
          subst hv''
          exact absurd hlen hv

theorem mem_foldl_pass1CellP (board : Board) :
    ∀ (cells : List (Nat × Nat × TileState)) (init : List Key) (k : Key),
      k ∈ cells.foldl (pass1CellP board) init ↔
        k ∈ init ∨ ∃ cl ∈ cells, ∃ v, cl.2.2 = TileState.number v ∧
          v = (((getNeighbors board cl.1 cl.2.1).filter (isHiddenAt board)).length : Int) ∧
          ∃ n ∈ (getNeighbors board cl.1 cl.2.1).filter (isHiddenAt board), k = keyOf n := by
  intro cells
  induction cells with
  | nil => simp
  | cons cl cells ih =>
    intro init k
    rw [List.foldl_cons, ih, mem_pass1CellP]
    constructor
    · rintro ((h | hcl) | ⟨cl', hcl', rest⟩)
      · exact Or.inl h
      · exact Or.inr ⟨cl, List.mem_cons_self cl cells, hcl⟩
      · exact Or.inr ⟨cl', List.mem_cons_of_mem cl hcl', rest⟩
    · rintro (h | ⟨cl', hcl', rest⟩)
      · exact Or.inl (Or.inl h)
      · rcases List.mem_cons.mp hcl' with rfl | h'
        · exact Or.inl (Or.inr rest)
        · exact Or.inr ⟨cl', h', rest⟩

theorem mem_pass1P_iff {board : Board} {k : Key} :
    k ∈ pass1P board ↔ ∃ p : Pos, k = keyOf p ∧ MineConcl board p := by
  unfold pass1P
  rw [mem_foldl_pass1CellP]
  simp only [List.not_mem_nil, false_or]
  constructor
  · rintro ⟨⟨r, c, t⟩, hcl, v, ht, hlen, n, hn, rfl⟩
    have ht' : t = TileState.number v := ht
    subst ht'
    rcases List.mem_filter.mp hn with ⟨hmem, hhid⟩
    exact ⟨n, rfl, r, c, v, mem_cellsOf.mp hcl, hmem, isHiddenAt_iff.mp hhid, hlen⟩
  · rintro ⟨p, rfl, r, c, v, ht, hmem, hhid, hlen⟩
    exact ⟨(r, c, TileState.number v), mem_cellsOf.mpr ht, v, rfl, hlen,
      p, List.mem_filter.mpr ⟨hmem, isHiddenAt_iff.mpr hhid⟩, rfl⟩

/-! ## Pass 2: bridge to the pure version and characterization -/

theorem pass2Cell_eq_of_rect {board : Board} (hrect : isRect board = true)
    (mines safe : List Key) (cell : Nat × Nat × TileState) :
    pass2Cell board mines safe cell = some (pass2CellP board mines safe cell) := by
  rcases cell with ⟨r, c, t⟩
  cases t with
  | hidden => rfl
  | number v =>
    have hfil : filterE (fun n => (tileAt? board n).bind fun t =>
          some (t.isHidden && !(decide (keyOf n ∈ mines)))) (getNeighbors board r c)
        = some ((getNeighbors board r c).filter fun n =>
            isHiddenAt board n && !(decide (keyOf n ∈ mines))) := by
      apply filterE_eq_filter
      intro n hn
      rcases tileAt?_isSome_of_rect hrect (getNeighbors_bounds hn).1
        (getNeighbors_bounds hn).2 with ⟨u, hu⟩
      show (tileAt? board n).bind (fun t =>
        some (t.isHidden && !(decide (keyOf n ∈ mines)))) =
          some (isHiddenAt board n && !(decide (keyOf n ∈ mines)))
      rw [hu, Option.some_bind]
      unfold isHiddenAt
      rw [hu]
    have hdefL : pass2Cell board mines safe (r, c, TileState.number v) =
        ((getNeighborsChecked board r c).bind fun ns =>
          if v = ((ns.filter fun n => decide (keyOf n ∈ mines)).length : Int) then
            (filterE (fun n => (tileAt? board n).bind fun t =>
              some (t.isHidden && !(decide (keyOf n ∈ mines)))) ns).bind
              fun hiddenNs =>
                some (hiddenNs.foldl (fun acc n => setAdd acc (keyOf n)) safe)
          else some safe) := rfl
    have hdefR : pass2CellP board mines safe (r, c, TileState.number v) =
        (if v = (((getNeighbors board r c).filter fun n =>
            decide (keyOf n ∈ mines)).length : Int) then
          ((getNeighbors board r c).filter fun n =>
            isHiddenAt board n && !(decide (keyOf n ∈ mines))).foldl
              (fun acc n => setAdd acc (keyOf n)) safe
        else safe) := rfl
    rw [hdefL, hdefR, getNeighborsChecked_eq, Option.some_bind]
    by_cases hv : v = (((getNeighbors board r c).filter fun n =>
        decide (keyOf n ∈ mines)).length : Int)
    · rw [if_pos hv, if_pos hv, hfil, Option.some_bind]
    · rw [if_neg hv, if_neg hv]

theorem pass2_eq_of_rect {board : Board} (hrect : isRect board = true)
    (mines : List Key) :
    pass2 board mines = some (pass2P board mines) :=
  foldE_eq_foldl (pass2Cell board mines) (pass2CellP board mines) (cellsOf board)
    (fun s a _ => pass2Cell_eq_of_rect hrect mines s a) []

theorem mem_pass2CellP {board : Board} {mines init : List Key}
    {cl : Nat × Nat × TileState} {k : Key} :
    k ∈ pass2CellP board mines init cl ↔ k ∈ init ∨
      ∃ v, cl.2.2 = TileState.number v ∧
      v = (((getNeighbors board cl.1 cl.2.1).filter fun n =>
        decide (keyOf n ∈ mines)).length : Int) ∧
      ∃ n ∈ (getNeighbors board cl.1 cl.2.1).filter
        (fun n => isHiddenAt board n && !(decide (keyOf n ∈ mines))), k = keyOf n := by
  rcases cl with ⟨r, c, t⟩
  cases t with
  | hidden =>
    constructor
    · exact fun h => Or.inl h
    · rintro (h | ⟨v, hv, _⟩)
      · exact h
      · exact absurd hv (by simp)
  | number v =>
    have hdef : pass2CellP board mines init (r, c, TileState.number v) =
        (if v = (((getNeighbors board r c).filter fun n =>
            decide (keyOf n ∈ mines)).length : Int) then
          ((getNeighbors board r c).filter fun n =>
            isHiddenAt board n && !(decide (keyOf n ∈ mines))).foldl
              (fun acc n => setAdd acc (keyOf n)) init
        else init) := rfl
    rw [hdef]
    by_cases hv : v = (((getNeighbors board r c).filter fun n =>
        decide (keyOf n ∈ mines)).length : Int)
    · rw [if_pos hv, mem_foldl_setAdd]
      constructor
      · rintro (h | ⟨n, hn, rfl⟩)
        · exact Or.inl h
        · exact Or.inr ⟨v, rfl, hv, n, hn, rfl⟩
      · rintro (h | ⟨v', hv', hlen, n, hn, rfl⟩)
        · exact Or.inl h
        · exact Or.inr ⟨n, hn, rfl⟩
    · rw [if_neg hv]
      constructor
      · exact fun h => Or.inl h
      · rintro (h | ⟨v', hv', hlen, n, hn, rfl⟩)
        · exact h
        · injection hv' with hv''
          subst hv''
          exact absurd hlen hv

theorem mem_foldl_pass2CellP (board : Board) (mines : List Key) :
    ∀ (cells : List (Nat × Nat × TileState)) (init : List Key) (k : Key),
      k ∈ cells.foldl (pass2CellP board mines) init ↔
        k ∈ init ∨ ∃ cl ∈ cells, ∃ v, cl.2.2 = TileState.number v ∧
          v = (((getNeighbors board cl.1 cl.2.1).filter fun n =>
            decide (keyOf n ∈ mines)).length : Int) ∧
          ∃ n ∈ (getNeighbors board cl.1 cl.2.1).filter
            (fun n => isHiddenAt board n && !(decide (keyOf n ∈ mines))), k = keyOf n := by
  intro cells
  induction cells with
  | nil => simp
  | cons cl cells ih =>
    intro init k
    rw [List.foldl_cons, ih, mem_pass2CellP]
    constructor
    · rintro ((h | hcl) | ⟨cl', hcl', rest⟩)
      · exact Or.inl h
      · exact Or.inr ⟨cl, List.mem_cons_self cl cells, hcl⟩
      · exact Or.inr ⟨cl', List.mem_cons_of_mem cl hcl', rest⟩
    · rintro (h | ⟨cl', hcl', rest⟩)
      · exact Or.inl (Or.inl h)
      · rcases List.mem_cons.mp hcl' with rfl | h'
        · exact Or.inl (Or.inr rest)
        · exact Or.inr ⟨cl', h', rest⟩

theorem mem_pass2P_iff {board : Board} {mines : List Key} {k : Key} :
    k ∈ pass2P board mines ↔ ∃ p : Pos, k = keyOf p ∧
      tileAt? board p = some .hidden ∧ keyOf p ∉ mines ∧
      ∃ r c v, tileAt? board (r, c) = some (TileState.number v) ∧
        p ∈ getNeighbors board r c ∧
        v = (((getNeighbors board r c).filter fun n =>
          decide (keyOf n ∈ mines)).length : Int) := by
  unfold pass2P
  rw [mem_foldl_pass2CellP]
  simp only [List.not_mem_nil, false_or]
  constructor
  · rintro ⟨⟨r, c, t⟩, hcl, v, ht, hlen, n, hn, rfl⟩
    have ht' : t = TileState.number v := ht
    subst ht'
    rcases List.mem_filter.mp hn with ⟨hmem, hb⟩
    rcases Bool.and_eq_true .. ▸ hb with ⟨hhid, hnm⟩
    rw [Bool.not_eq_true', decide_eq_false_iff_not] at hnm
    exact ⟨n, rfl, isHiddenAt_iff.mp hhid, hnm,
      r, c, v, mem_cellsOf.mp hcl, hmem, hlen⟩
  · rintro ⟨p, rfl, hhid, hnm, r, c, v, ht, hmem, hlen⟩
    refine ⟨(r, c, TileState.number v), mem_cellsOf.mpr ht, v, rfl, hlen, p, ?_, rfl⟩
    refine List.mem_filter.mpr ⟨hmem, ?_⟩
    rw [Bool.and_eq_true, Bool.not_eq_true', decide_eq_false_iff_not]
    exact ⟨isHiddenAt_iff.mpr hhid, hnm⟩

theorem filter_keyOf_map (ns minesPos : List Pos) :
    (ns.filter fun n => decide (keyOf n ∈ minesPos.map keyOf)) =
      ns.filter fun n => decide (n ∈ minesPos) := by
  apply List.filter_congr
  intro n _
  rw [decide_eq_decide]
  exact mem_map_keyOf

theorem mem_pass2P_map_iff {board : Board} {minesPos : List Pos} {k : Key} :
    k ∈ pass2P board (minesPos.map keyOf) ↔
      ∃ p : Pos, k = keyOf p ∧ SafeConcl board minesPos p := by
  rw [mem_pass2P_iff]
  apply exists_congr
  intro p
  unfold SafeConcl
  rw [mem_map_keyOf]
  constructor
  · rintro ⟨rfl, hhid, hnm, r, c, v, ht, hmem, hlen⟩
    rw [filter_keyOf_map] at hlen
    exact ⟨rfl, hhid, hnm, r, c, v, ht, hmem, hlen⟩
  · rintro ⟨rfl, hhid, hnm, r, c, v, ht, hmem, hlen⟩
    rw [← filter_keyOf_map (getNeighbors board r c) minesPos] at hlen
    exact ⟨rfl, hhid, hnm, r, c, v, ht, hmem, hlen⟩

/-! ## What each pass can return on an arbitrary board -/

theorem hiddenPred_true {board : Board} {n : Pos}
    (h : (tileAt? board n).bind (fun t => some t.isHidden) = some true) :
    tileAt? board n = some .hidden := by
  cases ht : tileAt? board n with
  | none => rw [ht] at h; exact absurd h (by simp)
  | some u =>
    rw [ht, Option.some_bind, Option.some_inj] at h
    cases u with
    | hidden => rfl
    | number v => exact absurd h (by simp [TileState.isHidden])

theorem hiddenNotMinePred_true {board : Board} {mines : List Key} {n : Pos}
    (h : (tileAt? board n).bind
      (fun t => some (t.isHidden && !(decide (keyOf n ∈ mines)))) = some true) :
    tileAt? board n = some .hidden ∧ keyOf n ∉ mines := by
  cases ht : tileAt? board n with
  | none => rw [ht] at h; exact absurd h (by simp)
  | some u =>
    rw [ht, Option.some_bind, Option.some_inj, Bool.and_eq_true] at h
    obtain ⟨h1, h2⟩ := h
    rw [Bool.not_eq_true', decide_eq_false_iff_not] at h2
    refine ⟨?_, h2⟩
    cases u with
    | hidden => rfl
    | number v => exact absurd h1 (by simp [TileState.isHidden])

theorem pass1Cell_some {board : Board} {s s' : List Key}
    {cl : Nat × Nat × TileState} (h : pass1Cell board s cl = some s') :
    ∃ hid : List Pos,
      (∀ n ∈ hid, n ∈ getNeighbors board cl.1 cl.2.1 ∧
        tileAt? board n = some .hidden) ∧
      (s' = s ∨ s' = hid.foldl (fun acc n => setAdd acc (keyOf n)) s) := by
  rcases cl with ⟨r, c, t⟩
  cases t with
  | hidden => exact ⟨[], by simp, Or.inl (Option.some_inj.mp h).symm⟩
  | number v =>
    have hdefL : pass1Cell board s (r, c, TileState.number v) =
        (getNeighborsChecked board r c).bind fun ns =>
          (filterE (fun n => (tileAt? board n).bind fun t => some t.isHidden) ns).bind
            fun hiddenNs =>
              if v = (hiddenNs.length : Int) then
                some (hiddenNs.foldl (fun acc n => setAdd acc (keyOf n)) s)
              else some s := rfl
    rw [hdefL, getNeighborsChecked_eq, Option.some_bind] at h
    cases hfe : filterE (fun n => (tileAt? board n).bind fun t => some t.isHidden)
        (getNeighbors board r c) with
    | none => rw [hfe] at h; exact absurd h (by simp)
    | some hid =>
      rw [hfe, Option.some_bind] at h
      refine ⟨hid, ?_, ?_⟩
      · intro n hn
        rcases filterE_mem _ _ _ hfe n hn with ⟨hmem, hpn⟩
        exact ⟨hmem, hiddenPred_true hpn⟩
      · split at h
        · exact Or.inr (Option.some_inj.mp h).symm
        · exact Or.inl (Option.some_inj.mp h).symm

theorem pass2Cell_some {board : Board} {mines s s' : List Key}
    {cl : Nat × Nat × TileState} (h : pass2Cell board mines s cl = some s') :
    ∃ hid : List Pos,
      (∀ n ∈ hid, n ∈ getNeighbors board cl.1 cl.2.1 ∧
        tileAt? board n = some .hidden ∧ keyOf n ∉ mines) ∧
      (s' = s ∨ s' = hid.foldl (fun acc n => setAdd acc (keyOf n)) s) := by
  rcases cl with ⟨r, c, t⟩
  cases t with
  | hidden => exact ⟨[], by simp, Or.inl (Option.some_inj.mp h).symm⟩
  | number v =>
    have hdefL : pass2Cell board mines s (r, c, TileState.number v) =
        ((getNeighborsChecked board r c).bind fun ns =>
          if v = ((ns.filter fun n => decide (keyOf n ∈ mines)).length : Int) then
            (filterE (fun n => (tileAt? board n).bind fun t =>
              some (t.isHidden && !(decide (keyOf n ∈ mines)))) ns).bind
              fun hiddenNs =>
                some (hiddenNs.foldl (fun acc n => setAdd acc (keyOf n)) s)
          else some s) := rfl
    rw [hdefL, getNeighborsChecked_eq, Option.some_bind] at h
    split at h
    · cases hfe : filterE (fun n => (tileAt? board n).bind fun t =>
          some (t.isHidden && !(decide (keyOf n ∈ mines)))) (getNeighbors board r c) with
      | none => rw [hfe] at h; exact absurd h (by simp)
      | some hid =>
        rw [hfe, Option.some_bind, Option.some_inj] at h
        refine ⟨hid, ?_, Or.inr h.symm⟩
        intro n hn
        rcases filterE_mem _ _ _ hfe n hn with ⟨hmem, hpn⟩
        rcases hiddenNotMinePred_true hpn with ⟨h1, h2⟩
        exact ⟨hmem, h1, h2⟩
    · exact ⟨[], by simp, Or.inl (Option.some_inj.mp h).symm⟩

theorem pass1_keys {board : Board} {mk : List Key} (h : pass1 board = some mk) :
    ∀ k ∈ mk, ∃ p : Pos, k = keyOf p ∧ p.1 < board.length ∧ p.2 < width0 board ∧
      tileAt? board p = some .hidden := by
  refine foldE_invariant
    (P := fun s => ∀ k ∈ s, ∃ p : Pos, k = keyOf p ∧ p.1 < board.length ∧
      p.2 < width0 board ∧ tileAt? board p = some .hidden)
    (pass1Cell board) (cellsOf board) [] mk h (by simp) ?_
  intro s a s' _ hstep hP k hk
  rcases pass1Cell_some hstep with ⟨hid, hprops, hcase⟩
  rcases hcase with rfl | rfl
  · exact hP k hk
  · rcases (mem_foldl_setAdd keyOf hid s k).mp hk with hks | ⟨n, hn, rfl⟩
    · exact hP k hks
    · rcases hprops n hn with ⟨hmem, hhid⟩
      rcases getNeighbors_bounds hmem with ⟨hb1, hb2⟩
      exact ⟨n, rfl, hb1, hb2, hhid⟩

theorem pass2_keys {board : Board} {mines sk : List Key}
    (h : pass2 board mines = some sk) :
    ∀ k ∈ sk, ∃ p : Pos, k = keyOf p ∧ p.1 < board.length ∧ p.2 < width0 board ∧
      tileAt? board p = some .hidden ∧ keyOf p ∉ mines := by
  refine foldE_invariant
    (P := fun s => ∀ k ∈ s, ∃ p : Pos, k = keyOf p ∧ p.1 < board.length ∧
      p.2 < width0 board ∧ tileAt? board p = some .hidden ∧ keyOf p ∉ mines)
    (pass2Cell board mines) (cellsOf board) [] sk h (by simp) ?_
  intro s a s' _ hstep hP k hk
  rcases pass2Cell_some hstep with ⟨hid, hprops, hcase⟩
  rcases hcase with rfl | rfl
  · exact hP k hk
  · rcases (mem_foldl_setAdd keyOf hid s k).mp hk with hks | ⟨n, hn, rfl⟩
    · exact hP k hks
    · rcases hprops n hn with ⟨hmem, hhid, hnm⟩
      rcases getNeighbors_bounds hmem with ⟨hb1, hb2⟩
      exact ⟨n, rfl, hb1, hb2, hhid, hnm⟩

theorem pass1_nodup {board : Board} {mk : List Key} (h : pass1 board = some mk) :
    mk.Nodup := by
  refine foldE_invariant (P := fun s => s.Nodup)
    (pass1Cell board) (cellsOf board) [] mk h List.nodup_nil ?_
  intro s a s' _ hstep hP
  rcases pass1Cell_some hstep with ⟨hid, _, hcase⟩
  rcases hcase with rfl | rfl
  · exact hP
  · exact nodup_foldl_setAdd keyOf hid s hP

theorem pass2_nodup {board : Board} {mines sk : List Key}
    (h : pass2 board mines = some sk) : sk.Nodup := by
  refine foldE_invariant (P := fun s => s.Nodup)
    (pass2Cell board mines) (cellsOf board) [] sk h List.nodup_nil ?_
  intro s a s' _ hstep hP
  rcases pass2Cell_some hstep with ⟨hid, _, hcase⟩
  rcases hcase with rfl | rfl
  · exact hP
  · exact nodup_foldl_setAdd keyOf hid s hP

/-! ## Decomposing a successful `findMoves` call -/

theorem findMoves_parts {board : Board} {safe mines : List Pos}
    (h : findMoves board = some (safe, mines)) :
    ∃ mk sk, pass1 board = some mk ∧ pass2 board mk = some sk ∧
      mapE parseKey sk = some safe ∧ mapE parseKey mk = some mines := by
  have hdef : findMoves board = (pass1 board).bind fun mk =>
      (pass2 board mk).bind fun sk =>
        (mapE parseKey sk).bind fun safeArr =>
          (mapE parseKey mk).bind fun mineArr => some (safeArr, mineArr) := rfl
  rw [hdef] at h
  cases h1 : pass1 board with
  | none => rw [h1] at h; exact absurd h (by simp)
  | some mk =>
    rw [h1, Option.some_bind] at h
    cases h2 : pass2 board mk with
    | none => rw [h2] at h; exact absurd h (by simp)
    | some sk =>
      rw [h2, Option.some_bind] at h
      cases h3 : mapE parseKey sk with
      | none => rw [h3] at h; exact absurd h (by simp)
      | some sfa =>
        rw [h3, Option.some_bind] at h
        cases h4 : mapE parseKey mk with
        | none => rw [h4] at h; exact absurd h (by simp)
        | some mna =>
          rw [h4, Option.some_bind, Option.some_inj] at h
          obtain ⟨hsf, hmn⟩ := Prod.mk.injEq .. ▸ h
          subst hsf
          subst hmn
          exact ⟨mk, sk, rfl, h2, h3, h4⟩

theorem decode_inv {keys : List Key} {arr : List Pos}
    (hshape : ∀ k ∈ keys, ∃ p : Pos, k = keyOf p)
    (hmap : mapE parseKey keys = some arr) :
    keys = arr.map keyOf := by
  rcases decode_keys keys hshape with ⟨ps, hmap', hk⟩
  rw [hmap, Option.some_inj] at hmap'
  rw [hk, ← hmap']

theorem findMoves_rect_inv {board : Board} {safe mines : List Pos}
    (hrect : isRect board = true) (h : findMoves board = some (safe, mines)) :
    pass1P board = mines.map keyOf ∧
      pass2P board (mines.map keyOf) = safe.map keyOf := by
  rcases findMoves_parts h with ⟨mk, sk, h1, h2, h3, h4⟩
  have hmk : mk = pass1P board := by
    rw [pass1_eq_of_rect hrect, Option.some_inj] at h1
    exact h1.symm
  have hshape1 : ∀ k ∈ mk, ∃ p : Pos, k = keyOf p := by
    intro k hk
    rcases pass1_keys h1 k hk with ⟨p, hp, _⟩
    exact ⟨p, hp⟩
  have hmines : mk = mines.map keyOf := decode_inv hshape1 h4
  have hshape2 : ∀ k ∈ sk, ∃ p : Pos, k = keyOf p := by
    intro k hk
    rcases pass2_keys h2 k hk with ⟨p, hp, _⟩
    exact ⟨p, hp⟩
  have hsafe : sk = safe.map keyOf := decode_inv hshape2 h3
  have hsk : sk = pass2P board (mines.map keyOf) := by
    rw [hmines, pass2_eq_of_rect hrect, Option.some_inj] at h2
    exact h2.symm
  exact ⟨by rw [← hmk, hmines], by rw [← hsk, hsafe]⟩

/-! ## The claims -/

/-- C1: Pass 1 (mine deduction) of `findMoves`: on a rectangular board, a
position is in the returned mine set iff some revealed clue has it as an
in-bounds hidden neighbor and the clue's value equals the clue's number
of hidden neighbors. -/
theorem claim_C1 (board : Board) (safe mines : List Pos) (p : Pos)
    (hrect : isRect board = true) (h : findMoves board = some (safe, mines)) :
    p ∈ mines ↔ MineConcl board p := by
  rcases findMoves_rect_inv hrect h with ⟨h1, _⟩
  constructor
  · intro hp
    have hm : keyOf p ∈ pass1P board := by
      rw [h1]
      exact mem_map_keyOf.mpr hp
    rcases mem_pass1P_iff.mp hm with ⟨q, hk, hconc⟩
    rwa [keyOf_inj hk]
  · intro hconc
    have hm : keyOf p ∈ pass1P board := mem_pass1P_iff.mpr ⟨p, rfl, hconc⟩
    rw [h1] at hm
    exact mem_map_keyOf.mp hm

theorem claim_C1_witness :
    isRect boardB = true ∧ findMoves boardB = some ([(0, 2), (1, 2)], [(0, 1)]) ∧
      (((0, 1) : Pos) ∈ ([(0, 1)] : List Pos) ↔ MineConcl boardB (0, 1)) :=
  ⟨by decide, by decide,
    claim_C1 boardB [(0, 2), (1, 2)] [(0, 1)] (0, 1) (by decide) (by decide)⟩

/-- C2: Pass 2 (safe deduction) of `findMoves`: on a rectangular board, a
position is in the returned safe set iff it is hidden, not a concluded
mine, and neighbors a revealed clue whose value equals the clue's count
of neighbors in the completed Pass-1 mine set; Pass 2 consults exactly
the returned (completed Pass-1) mine set and does not extend it. -/
theorem claim_C2 (board : Board) (safe mines : List Pos) (p : Pos)
    (hrect : isRect board = true) (h : findMoves board = some (safe, mines)) :
    p ∈ safe ↔ SafeConcl board mines p := by
  rcases findMoves_rect_inv hrect h with ⟨_, h2⟩
  constructor
  · intro hp
    have hm : keyOf p ∈ pass2P board (mines.map keyOf) := by
      rw [h2]
      exact mem_map_keyOf.mpr hp
    rcases mem_pass2P_map_iff.mp hm with ⟨q, hk, hconc⟩
    rwa [keyOf_inj hk]
  · intro hconc
    have hm : keyOf p ∈ pass2P board (mines.map keyOf) :=
      mem_pass2P_map_iff.mpr ⟨p, rfl, hconc⟩
    rw [h2] at hm
    exact mem_map_keyOf.mp hm

theorem claim_C2_witness :
    isRect boardB = true ∧ findMoves boardB = some ([(0, 2), (1, 2)], [(0, 1)]) ∧
      (((0, 2) : Pos) ∈ ([(0, 2), (1, 2)] : List Pos) ↔
        SafeConcl boardB [(0, 1)] (0, 2)) :=
  ⟨by decide, by decide,
    claim_C2 boardB [(0, 2), (1, 2)] [(0, 1)] (0, 2) (by decide) (by decide)⟩

/-- C3: the safe set and the mine set returned by a single `findMoves`
call are disjoint, on every board on which the call returns. -/
theorem claim_C3 (board : Board) (safe mines : List Pos) (p : Pos)
    (h : findMoves board = some (safe, mines)) (hp : p ∈ safe) : p ∉ mines := by
  rcases findMoves_parts h with ⟨mk, sk, h1, h2, h3, h4⟩
  have hshape1 : ∀ k ∈ mk, ∃ q : Pos, k = keyOf q := fun k hk =>
    (pass1_keys h1 k hk).imp fun q hq => hq.1
  have hmines : mk = mines.map keyOf := decode_inv hshape1 h4
  have hshape2 : ∀ k ∈ sk, ∃ q : Pos, k = keyOf q := fun k hk =>
    (pass2_keys h2 k hk).imp fun q hq => hq.1
  have hsafe : sk = safe.map keyOf := decode_inv hshape2 h3
  have hks : keyOf p ∈ sk := by
    rw [hsafe]
    exact mem_map_keyOf.mpr hp
  rcases pass2_keys h2 (keyOf p) hks with ⟨q, hk, _, _, _, hnm⟩
  intro hpm
  apply hnm
  rw [← hk, hmines]
  exact mem_map_keyOf.mpr hpm

theorem claim_C3_witness :
    findMoves boardB = some ([(0, 2), (1, 2)], [(0, 1)]) ∧
      ((0, 2) : Pos) ∈ ([(0, 2), (1, 2)] : List Pos) ∧
      ((0, 2) : Pos) ∉ ([(0, 1)] : List Pos) :=
  ⟨by decide, by decide,
    claim_C3 boardB [(0, 2), (1, 2)] [(0, 1)] (0, 2) (by decide) (by decide)⟩

/-- C4: every position `getNeighbors` returns is inside
`[0, rowCount) × [0, width-of-row-0)`, differs from the input position,
and the result has at most 8 elements, listed in the fixed offset order
of `directions` (it is a sublist of the offsets applied in order) — for
all integer inputs, in-range or not. -/
theorem claim_C4 (board : Board) (row col : Int) :
    (∀ p ∈ getNeighbors board row col,
      p.1 < board.length ∧ p.2 < width0 board ∧
        ¬((p.1 : Int) = row ∧ (p.2 : Int) = col)) ∧
    (getNeighbors board row col).length ≤ 8 ∧
    List.Sublist (getNeighbors board row col)
      (directions.map fun d => ((row + d.1).toNat, (col + d.2).toNat)) := by
  refine ⟨?_, getNeighbors_length_le board row col, getNeighbors_sublist board row col⟩
  intro p hp
  exact ⟨(getNeighbors_bounds hp).1, (getNeighbors_bounds hp).2,
    getNeighbors_ne_self hp⟩

theorem claim_C4_witness :
    ((0, 1) : Pos) ∈ getNeighbors boardC 0 0 ∧
      (((0, 1) : Pos).1 < boardC.length ∧ ((0, 1) : Pos).2 < width0 boardC ∧
        ¬((((0, 1) : Pos).1 : Int) = 0 ∧ (((0, 1) : Pos).2 : Int) = 0)) :=
  ⟨by decide, (claim_C4 boardC 0 0).1 (0, 1) (by decide)⟩

/-- C5: on every rectangular board `findMoves` returns a result (it
raises no error), and on the empty board it returns two empty sets. -/
theorem claim_C5 (board : Board) :
    (isRect board = true → ∃ res, findMoves board = some res) ∧
      findMoves ([] : Board) = some ([], []) := by
  constructor
  · intro hrect
    have h1 := pass1_eq_of_rect hrect
    have hshape1 : ∀ k ∈ pass1P board, ∃ p : Pos, k = keyOf p := fun k hk =>
      (pass1_keys h1 k hk).imp fun q hq => hq.1
    rcases decode_keys _ hshape1 with ⟨ms, hmapm, _⟩
    have h2 := pass2_eq_of_rect hrect (pass1P board)
    have hshape2 : ∀ k ∈ pass2P board (pass1P board), ∃ p : Pos, k = keyOf p :=
      fun k hk => (pass2_keys h2 k hk).imp fun q hq => hq.1
    rcases decode_keys _ hshape2 with ⟨sf, hmaps, _⟩
    refine ⟨(sf, ms), ?_⟩
    have hdef : findMoves board = (pass1 board).bind fun mk =>
        (pass2 board mk).bind fun sk =>
          (mapE parseKey sk).bind fun safeArr =>
            (mapE parseKey mk).bind fun mineArr => some (safeArr, mineArr) := rfl
    rw [hdef, h1, Option.some_bind, h2, Option.some_bind, hmaps, Option.some_bind,
      hmapm, Option.some_bind]
  · rfl

theorem claim_C5_witness :
    isRect boardC = true ∧ ∃ res, findMoves boardC = some res :=
  ⟨by decide, (claim_C5 boardC).1 (by decide)⟩

/-- C6: on the 2×3 Scenario C board, `findMoves` returns mines
`{(0,1),(1,1)}` and no safe cells; the clue `1` at `(1,0)` has two
hidden neighbors and two identified mine neighbors, so neither pass
lets it contribute a conclusion. -/
theorem claim_C6 :
    findMoves boardC = some ([], [(0, 1), (1, 1)]) ∧
      tileAt? boardC (1, 0) = some (TileState.number 1) ∧
      ((getNeighbors boardC 1 0).filter (isHiddenAt boardC)).length = 2 ∧
      ((getNeighbors boardC 1 0).filter fun n =>
        decide (n ∈ ([(0, 1), (1, 1)] : List Pos))).length = 2 ∧
      (1 : Int) ≠ (2 : Int) :=
  ⟨by decide, by decide, by decide, by decide, by decide⟩

/-- C7: the two arrays a successful `findMoves` call returns are
duplicate-free, and decoding a key built from coordinates produced by
`getNeighbors` (split at the underscore, then parse) is the identity. -/
theorem claim_C7 (board : Board) :
    (∀ safe mines : List Pos, findMoves board = some (safe, mines) →
      safe.Nodup ∧ mines.Nodup) ∧
    (∀ (row col : Int), ∀ q ∈ getNeighbors board row col,
      parseKey (cellKey q.1 q.2) = some q) := by
  constructor
  · intro safe mines h
    rcases findMoves_parts h with ⟨mk, sk, h1, h2, h3, h4⟩
    have hshape1 : ∀ k ∈ mk, ∃ q : Pos, k = keyOf q := fun k hk =>
      (pass1_keys h1 k hk).imp fun q hq => hq.1
    have hmines : mk = mines.map keyOf := decode_inv hshape1 h4
    have hshape2 : ∀ k ∈ sk, ∃ q : Pos, k = keyOf q := fun k hk =>
      (pass2_keys h2 k hk).imp fun q hq => hq.1
    have hsafe : sk = safe.map keyOf := decode_inv hshape2 h3
    constructor
    · have hnod := pass2_nodup h2
      rw [hsafe] at hnod
      exact hnod.of_map
    · have hnod := pass1_nodup h1
      rw [hmines] at hnod
      exact hnod.of_map
  · intro row col q _
    exact parseKey_keyOf q

theorem claim_C7_witness :
    (findMoves boardB = some ([(0, 2), (1, 2)], [(0, 1)]) ∧
      ([(0, 2), (1, 2)] : List Pos).Nodup ∧ ([(0, 1)] : List Pos).Nodup) ∧
      (((1, 1) : Pos) ∈ getNeighbors boardB 0 0 ∧
        parseKey (cellKey 1 1) = some (1, 1)) :=
  ⟨⟨by decide,
      (claim_C7 boardB).1 [(0, 2), (1, 2)] [(0, 1)] (by decide)⟩,
    ⟨by decide, (claim_C7 boardB).2 0 0 (1, 1) (by decide)⟩⟩

/-- C8: `findMoves` is deterministic: its output depends only on the
input board snapshot, so equal boards give equal results. -/
theorem claim_C8 (b1 b2 : Board) (h : b1 = b2) :
    findMoves b1 = findMoves b2 := by
  rw [h]

theorem claim_C8_witness :
    boardC = boardC ∧ findMoves boardC = findMoves boardC :=
  ⟨rfl, claim_C8 boardC boardC rfl⟩

/-- C9: every position in either returned set of a successful
`findMoves` call is inside the board bounds and its tile is hidden in
the input board; no revealed tile's position is concluded. -/
theorem claim_C9 (board : Board) (safe mines : List Pos) (p : Pos)
    (h : findMoves board = some (safe, mines)) (hp : p ∈ safe ∨ p ∈ mines) :
    p.1 < board.length ∧ p.2 < width0 board ∧
      tileAt? board p = some .hidden := by
  rcases findMoves_parts h with ⟨mk, sk, h1, h2, h3, h4⟩
  have hshape1 : ∀ k ∈ mk, ∃ q : Pos, k = keyOf q := fun k hk =>
    (pass1_keys h1 k hk).imp fun q hq => hq.1
  have hmines : mk = mines.map keyOf := decode_inv hshape1 h4
  have hshape2 : ∀ k ∈ sk, ∃ q : Pos, k = keyOf q := fun k hk =>
    (pass2_keys h2 k hk).imp fun q hq => hq.1
  have hsafe : sk = safe.map keyOf := decode_inv hshape2 h3
  rcases hp with hp | hp
  · have hks : keyOf p ∈ sk := by
      rw [hsafe]
      exact mem_map_keyOf.mpr hp
    rcases pass2_keys h2 (keyOf p) hks with ⟨q, hk, hb1, hb2, hh, _⟩
    rw [keyOf_inj hk]
    exact ⟨hb1, hb2, hh⟩
  · have hkm : keyOf p ∈ mk := by
      rw [hmines]
      exact mem_map_keyOf.mpr hp
    rcases pass1_keys h1 (keyOf p) hkm with ⟨q, hk, hb1, hb2, hh⟩
    rw [keyOf_inj hk]
    exact ⟨hb1, hb2, hh⟩

theorem claim_C9_witness :
    (findMoves boardB = some ([(0, 2), (1, 2)], [(0, 1)]) ∧
      (((0, 1) : Pos) ∈ ([(0, 2), (1, 2)] : List Pos) ∨
        ((0, 1) : Pos) ∈ ([(0, 1)] : List Pos))) ∧
      (((0, 1) : Pos).1 < boardB.length ∧ ((0, 1) : Pos).2 < width0 boardB ∧
        tileAt? boardB (0, 1) = some .hidden) :=
  ⟨⟨by decide, by decide⟩,
    claim_C9 boardB [(0, 2), (1, 2)] [(0, 1)] (0, 1) (by decide)
      (Or.inr (by decide))⟩

/-- C10: on a board with zero rows `getNeighbors` returns the empty
sequence and performs no out-of-bounds access: the row test fails first
and short-circuits the read of row 0's width, so the checked evaluation
returns a value (`some`) rather than a `TypeError` (`none`). -/
theorem claim_C10 :
    (∀ row col : Int, getNeighborsChecked ([] : Board) row col = some []) ∧
      (∀ nr nc : Int, inBoundsChecked ([] : Board) nr nc = some false) := by
  constructor
  · intro row col
    rw [getNeighborsChecked_eq]
    congr 1
    unfold getNeighbors
    apply List.filterMap_eq_nil_iff.mpr
    intro d _
    rw [if_neg]
    rintro ⟨h1, h2, _⟩
    simp only [List.length_nil, Nat.cast_zero] at h2
    omega
  · intro nr nc
    unfold inBoundsChecked
    rw [if_neg]
    rintro ⟨h1, h2⟩
    simp only [List.length_nil, Nat.cast_zero] at h2
    omega

end Sweeper
